/-
  Verification of the connectivity-graph normalization and resolution engine
  of map-knowledge (src/mapknowledge/apinatomy.py).

  The Python code is shallowly embedded: graphs ("blobs") are lists of edge
  and node records, the in-place dict mutations of the source become explicit
  state passing, Python exceptions (ValueError, KeyError, IndexError,
  AssertionError, NameError, networkx errors) become an `Except PErr` monad,
  and the unbounded recursive closures of the hierarchy resolver take a fuel
  parameter (Python would hit RecursionError where the fuel runs out).
-/

import Mathlib

set_option maxRecDepth 4096

/-! ## Data model

An edge is a (sub, pred, obj) triple with optional opaque metadata
(Python: an edge dict with keys sub/pred/obj and optionally meta).
A node has an id, the optional `topology` property that `deblob` moves onto
nodes, and optional opaque metadata. -/

structure Edge where
  sub : String
  pred : String
  obj : String
  meta : Option String := none
deriving DecidableEq, Repr

structure Node where
  id : String
  topology : Option String := none
  meta : Option String := none
deriving DecidableEq, Repr

structure Blob where
  nodes : List Node
  edges : List Edge
deriving DecidableEq, Repr

/-- Python exceptions raised by the embedded code. -/
inductive PErr where
  | valueError (msg : String)     -- ValueError (the region/layer length mismatch)
  | keyError (key : String)       -- KeyError (missing dict key, e.g. in bindex/nindex)
  | indexError                    -- IndexError ([...][0] on an empty list)
  | assertionError                -- AssertionError (layer_regions)
  | nameError (msg : String)      -- NameError (the undefined `top` in deblob)
  | graphError (msg : String)     -- networkx NodeNotFound / NetworkXUnfeasible
  | fuel                          -- RecursionError analogue for exhausted fuel
deriving DecidableEq, Repr

/-- Extract the success value of an `Except` (used to state concrete results). -/
def okValue : Except PErr α → Option α
  | .ok a => some a
  | .error _ => none

/-- Extract the error of an `Except` (used to state concrete failures). -/
def errValue : Except PErr α → Option PErr
  | .ok _ => none
  | .error e => some e

/-! ## Excluded layers

`EXCLUDED_LAYERS` from the source: `None` plus nine UBERON terms. -/

def EXCLUDED_LAYERS : List (Option String) :=
  [ none,
    some "UBERON:0000010",      -- peripheral nervous system
    some "UBERON:0000178",      -- blood
    some "UBERON:0000468",      -- multicellular organism
    some "UBERON:0001017",      -- central nervous system
    some "UBERON:0001359",      -- cerebrospinal fluid
    some "UBERON:0002318",      -- spinal cord white matter
    some "UBERON:0003714",      -- neural tissue
    some "UBERON:0005844",      -- spinal cord segment
    some "UBERON:0016549" ]     -- cns white matter

/-! ## Predicate vocabulary (class attributes of `Apinatomy`) -/

def Apinatomy.axon : String := "SAO:280355188"

def Apinatomy.dendrite : String := "SAO:420754792"

def Apinatomy.BAG : String := "apinatomy:BAG"

def Apinatomy.annotates : String := "apinatomy:annotates"

def Apinatomy.cloneOf : String := "apinatomy:cloneOf"

def Apinatomy.endsIn : String := "apinatomy:endsIn"

def Apinatomy.ontologyTerms : String := "apinatomy:ontologyTerms"

def Apinatomy.fasciculatesIn : String := "apinatomy:fasciculatesIn"

def Apinatomy.inheritedOntologyTerms : String := "apinatomy:inheritedOntologyTerms"

def Apinatomy.inheritedOntologyTerms_s : String := "apinatomy:inheritedOntologyTerms*"

def Apinatomy.inheritedExternal : String := "apinatomy:inheritedExternal"

def Apinatomy.inheritedExternal_s : String := "apinatomy:inheritedExternal*"

def Apinatomy.internalIn : String := "apinatomy:internalIn"

def Apinatomy.layerIn : String := "apinatomy:layerIn"

def Apinatomy.lyphs : String := "apinatomy:lyphs"

def Apinatomy.next : String := "apinatomy:next"

def Apinatomy.next_s : String := "apinatomy:next*"

def Apinatomy.references : String := "apinatomy:references"

def Apinatomy.topology_s : String := "apinatomy:topology*"

/-! ## `nifstd` field accessors

`nifstd.sub/pred/obj(edge, match)` return a Bool when a match value is given.
When the Python code passes `match=None` the accessor returns the raw string,
which is then used for its *truthiness*; `predOpt`/`objOpt` reproduce this:
a `none` match yields `true` exactly when the field is a non-empty string. -/

def nifstd.sub (e : Edge) (m : String) : Bool := e.sub == m

def nifstd.pred (e : Edge) (m : String) : Bool := e.pred == m

def nifstd.obj (e : Edge) (m : String) : Bool := e.obj == m

def nifstd.predOpt (e : Edge) (m : Option String) : Bool :=
  match m with
  | some s => e.pred == s
  | none => e.pred != ""

/-- The function `nifstd.ematch` for side-effect-free select functions: the edges of the
blob for which the select predicate holds of (edge, match). -/
def nifstd.ematch (blob : Blob) (select : Edge → String → Bool) (m : String) : List Edge :=
  blob.edges.filter (fun e => select e m)

/-! ## A small comparison/sorting theory

The Python `sorted` builtin with the `sekey` key compares tuples
(bool, str, str, str) lexicographically; strings compare by code point.
We encode each sort key as a `List (List Nat)` and compare keys
lexicographically, proving just enough (swap, equality, transitivity)
to get a deterministic, provably idempotent insertion sort. -/

def natLCmp : List Nat → List Nat → Ordering
  | [], [] => .eq
  | [], _ :: _ => .lt
  | _ :: _, [] => .gt
  | a :: as, b :: bs =>
    if a < b then .lt else if b < a then .gt else natLCmp as bs

def llCmp : List (List Nat) → List (List Nat) → Ordering
  | [], [] => .eq
  | [], _ :: _ => .lt
  | _ :: _, [] => .gt
  | a :: as, b :: bs =>
    match natLCmp a b with
    | .lt => .lt
    | .gt => .gt
    | .eq => llCmp as bs

/-- The code-point sequence of a string (Python strings compare by code point). -/
def strKey (s : String) : List Nat := s.data.map Char.toNat

/-! ### Generic insertion sort by a boolean comparator -/

def insertByB (le : α → α → Bool) (a : α) : List α → List α
  | [] => [a]
  | b :: l => if le a b then a :: b :: l else b :: insertByB le a l

def sortByB (le : α → α → Bool) (l : List α) : List α :=
  l.foldr (insertByB le) []

/-! ## Deduplication keeping the first occurrence (Python set/dict iteration) -/

def dedupFGo [DecidableEq α] : List α → List α → List α
  | [], _ => []
  | a :: t, seen => if a ∈ seen then dedupFGo t seen else a :: dedupFGo t (seen ++ [a])

def dedupF [DecidableEq α] (l : List α) : List α := dedupFGo l []

/-! ## The deblob sort key (`sekey`): (pred-is-not-ontologyTerms, pred, sub, obj) -/

def sekey (e : Edge) : List (List Nat) :=
  [ (if e.pred == Apinatomy.ontologyTerms then [0] else [1]),
    strKey e.pred, strKey e.sub, strKey e.obj ]

def edgeLeB (a b : Edge) : Bool := decide (llCmp (sekey a) (sekey b) ≠ .gt)

/-- Model of `sorted(blob["edges"], key=sekey)`. -/
def sortEdges (l : List Edge) : List Edge := sortByB edgeLeB l

def stripMeta (e : Edge) : Edge := { e with meta := none }

/-! ## `nifstd.listIn`: first position of a strict contiguous sublist

Fueled version of the recursive Python function; the fuel
`container.length + 2` dominates the recursion depth (the container
shrinks by at least one element per recursive call). -/

def listInF : Nat → List (Option String) → List (Option String) → Bool → Option Nat
  | 0, _, _, _ => none
  | fuel + 1, container, maybe, strict =>
    if container.length > maybe.length ∨ (¬ strict ∧ container.length = maybe.length) then
      match maybe with
      | [] => none   -- Python would raise IndexError here; simplify never passes an empty chain
      | z :: subcontained =>
        match container.findIdx? (fun x => x == z) with
        | none => none
        | some substart =>
          if subcontained.isEmpty then some substart
          else
            let subcontainer := container.drop (substart + 1)
            match listInF fuel subcontainer subcontained false with
            | some 0 => some substart
            | _ =>
              match listInF fuel subcontainer maybe false with
              | some m => some (substart + 1 + m)
              | none => none
    else none

def nifstd.listIn (container maybe : List (Option String)) : Option Nat :=
  listInF (container.length + 2) container maybe true

/-! ## Graph algorithms used by `nifstd.simplify`

(rdflib graph → networkx multidigraph → weakly connected components,
topological-sort cycle check, all simple paths). Triples are (sub, pred, obj). -/

abbrev Triple := String × String × String

def Edge.toTriple (e : Edge) : Triple := (e.sub, e.pred, e.obj)

def tripleToEdge (t : Triple) : Edge := ⟨t.1, t.2.1, t.2.2, none⟩

/-- Node list of a triple multigraph, in first-seen order. -/
def tripleNodes (ts : List Triple) : List String :=
  dedupF (ts.flatMap (fun t => [t.1, t.2.2]))

/-- Neighbours of `n` ignoring edge direction. -/
def undirAdj (ts : List Triple) (n : String) : List String :=
  ts.flatMap (fun t =>
    if t.1 == n then [t.2.2] else if t.2.2 == n then [t.1] else [])

/-- Closure of a node set under undirected adjacency (fueled iteration). -/
def compClose (ts : List Triple) : Nat → List String → List String
  | 0, acc => acc
  | fuel + 1, acc =>
    let nxt := dedupF ((acc.flatMap (undirAdj ts)).filter (fun x => decide (¬ x ∈ acc)))
    if nxt.isEmpty then acc else compClose ts fuel (acc ++ nxt)

/-- Model of `nx.weakly_connected_components`, components in first-seen node order. -/
def weakComponentsGo (ts : List Triple) : List String → List String → List (List String)
  | [], _ => []
  | n :: rest, done =>
    if n ∈ done then weakComponentsGo ts rest done
    else
      let c := compClose ts (2 * ts.length + 1) [n]
      c :: weakComponentsGo ts rest (done ++ c)

def weakComponents (ts : List Triple) : List (List String) :=
  weakComponentsGo ts (tripleNodes ts) []

/-- Kahn-style check that the subgraph is acyclic
(`nx.topological_sort` raises `NetworkXUnfeasible` otherwise). -/
def kahnOk (ts : List Triple) (nodes : List String) : Nat → List String → Bool
  | 0, removed => nodes.all (fun n => decide (n ∈ removed))
  | fuel + 1, removed =>
    let avail := nodes.filter (fun n =>
      decide (¬ n ∈ removed) &&
      ts.all (fun t => (!(t.2.2 == n)) || decide (t.1 ∈ removed)))
    if avail.isEmpty then nodes.all (fun n => decide (n ∈ removed))
    else kahnOk ts nodes fuel (removed ++ avail)

def acyclic (ts : List Triple) (nodes : List String) : Bool :=
  kahnOk ts nodes (nodes.length + 1) []

/-- Model of `nx.all_simple_paths` from `cur` to `target` (node paths, visited prefix `acc`). -/
def simplePathsFrom (ts : List Triple) (target : String) : Nat → String → List String → List (List String)
  | 0, _, _ => []
  | fuel + 1, cur, acc =>
    let acc2 := acc ++ [cur]
    if cur == target then [acc2]
    else
      let succs := dedupF (ts.filterMap (fun t => if t.1 == cur then some t.2.2 else none))
      (succs.filter (fun v => decide (¬ v ∈ acc2))).flatMap
        (fun v => simplePathsFrom ts target fuel v acc2)

def pathKey (p : List String) : List (List Nat) := p.map strKey

def pathLeB (a b : List String) : Bool := decide (llCmp (pathKey a) (pathKey b) ≠ .gt)

/-! ## `nifstd.zap` and `nifstd.simplify` -/

/-- The function `nifstd.zap`: the synthetic replacement edge for a collapsed path,
plus the edges scheduled for removal. -/
def nifstd.zap (path : List String) (predicates : List String) (oe2 : List Edge) :
    Edge × List Edge :=
  (⟨path.headD "", String.intercalate "-" predicates, path.getLastD "", none⟩, oe2)

/-- The component edges between path nodes in path-node order
(`nxgt.edges(path, keys=True)` filtered to both endpoints on the path). -/
def oe2For (sub : List Triple) (path : List String) : List Edge :=
  path.flatMap (fun n =>
    (sub.filter (fun t => t.1 == n && decide (t.2.2 ∈ path))).map tripleToEdge)

/-- Collapse the sorted paths of one connected component: for each path,
zap it when its predicate sequence equals the chain, or zap the contiguous
chain sublist found by `listIn`. Accumulates (additions, removals). -/
def pathZapStep (chain : List (Option String)) (subg : List Triple)
    (acc2 : List Edge × List Edge) (path : List String) : List Edge × List Edge :=
  let oe2 := oe2For subg path
  let predicates := oe2.map Edge.pred
  if predicates.map some = chain then
    let zr := nifstd.zap path predicates oe2
    (acc2.1 ++ [zr.1], acc2.2 ++ zr.2)
  else
    match nifstd.listIn (predicates.map some) chain with
    | some i =>
      let npath := (path.drop i).take (chain.length + 1)
      let oe2b := (oe2.drop i).take chain.length
      let predsb := (predicates.drop i).take chain.length
      let zr := nifstd.zap npath predsb oe2b
      (acc2.1 ++ [zr.1], acc2.2 ++ zr.2)
    | none => acc2

def pathZapFold (chain : List (Option String)) (subg : List Triple)
    (paths : List (List String)) (acc : List Edge × List Edge) :
    List Edge × List Edge :=
  paths.foldl (pathZapStep chain subg) acc

/-- Process the weakly connected components of the candidate graph of one chain
(`nx.topological_sort` raises on a cycle; `all_simple_paths` raises
NodeNotFound when an end node lies outside the subgraph of the component). -/
def compLoop (chain : List (Option String)) (triples : List Triple)
    (ends : List String) : List (List String) → (List Edge × List Edge) →
    Except PErr (List Edge × List Edge)
  | [], acc => .ok acc
  | comp :: rest, acc =>
    let subg := triples.filter (fun t => decide (t.1 ∈ comp))
    if ¬ acyclic subg comp then .error (.graphError "NetworkXUnfeasible")
    else if ends.any (fun t => decide (¬ t ∈ comp)) then
      .error (.graphError "NodeNotFound")
    else
      let paths := comp.flatMap (fun n => ends.flatMap (fun t =>
        simplePathsFrom subg t (comp.length + 1) n []))
      let paths := paths.filter (fun p => p.length == chain.length + 1)
      let paths := sortByB pathLeB paths
      compLoop chain triples ends rest (pathZapFold chain subg paths acc)

/-- One collapse chain of `nifstd.simplify`: strips `meta` from candidate
edges, finds collapsible simple paths, and returns the updated edge list
together with the edges scheduled for removal. -/
def chainStep (chain : List (Option String)) (edges : List Edge) :
    Except PErr (List Edge × List Edge) :=
  let stripped := edges.map (fun e => if some e.pred ∈ chain then stripMeta e else e)
  let candidates := stripped.filter (fun e => decide (some e.pred ∈ chain))
  if candidates.isEmpty then .ok (stripped, [])
  else
    let triples := dedupF (candidates.map Edge.toTriple)
    let ends := candidates.filterMap
      (fun e => if some e.pred = chain.getLastD none then some e.obj else none)
    match compLoop chain triples ends (weakComponents triples) ([], []) with
    | .error e => .error e
    | .ok addRem => .ok (stripped ++ addRem.1, addRem.2)

def simplifyGo : List (List (Option String)) → List Edge → List Edge →
    Except PErr (List Edge × List Edge)
  | [], es, rem => .ok (es, rem)
  | c :: cs, es, rem =>
    match chainStep c es with
    | .error e => .error e
    | .ok esr => simplifyGo cs esr.1 (rem ++ esr.2)

/-- The function `nifstd.simplify`: run all collapse chains (additions first), then delete
the scheduled edges (first matching occurrence each, skipping absent ones). -/
def nifstd.simplify (collapse : List (List (Option String))) (blob : Blob) :
    Except PErr Blob :=
  match simplifyGo collapse blob.edges [] with
  | .error e => .error e
  | .ok esr => .ok { blob with edges := esr.2.foldl (fun acc r => acc.erase r) esr.1 }

/-! ## `Apinatomy.deblob` -/

def Apinatomy.getiot (blob : Blob) : Option String :=
  blob.edges.findSome? (fun e =>
    if e.pred == Apinatomy.inheritedExternal ∨ e.pred == Apinatomy.inheritedOntologyTerms
    then some e.pred else none)

/-- The starred inherited predicate selected from the detected schema variant. -/
def iotS (iot : Option String) : String :=
  if iot == some Apinatomy.inheritedOntologyTerms then Apinatomy.inheritedOntologyTerms_s
  else Apinatomy.inheritedExternal_s

/-- Python interpolates `None` into the f-string when no inherited predicate
was detected. -/
def iotName (iot : Option String) : String := iot.getD "None"

def deblobChains (iot : Option String) : List (List (Option String)) :=
  [ [some "apinatomy:target", some "apinatomy:rootOf", some "apinatomy:levels"],
    [some "apinatomy:conveyingLyph", some "apinatomy:topology"],
    [some "apinatomy:conveys", some "apinatomy:source", some "apinatomy:sourceOf"],
    [some "apinatomy:conveys", some "apinatomy:target", some "apinatomy:sourceOf"],
    [some Apinatomy.cloneOf, iot],
    [some "apinatomy:conveyingLyph", iot] ]

/-- Step (1) of deblob: drop `levels` edges whose object is also the object
of a `next` edge (the check runs against the original edge list). -/
def levelsFilter (edges : List Edge) : List Edge :=
  edges.filter (fun e =>
    (!(e.pred == "apinatomy:levels")) ||
    ((e.pred == "apinatomy:levels") &&
      !(edges.any (fun ei => ei.obj == e.obj && ei.pred == Apinatomy.next))))

/-- The sequential in-place predicate renames of the deblob loop. -/
def renameEdge (iot : Option String) (p : String) : String :=
  let p := if p == "apinatomy:nextChainStartLevels" then "apinatomy:next" else p
  let p := if p == "apinatomy:target-apinatomy:rootOf-apinatomy:levels"
            ∨ p == "apinatomy:conveys-apinatomy:source-apinatomy:sourceOf"
            ∨ p == "apinatomy:conveys-apinatomy:target-apinatomy:sourceOf"
           then "apinatomy:next*" else p
  let p := if p == "apinatomy:conveyingLyph-apinatomy:topology" then "apinatomy:topology*" else p
  let p := if p == "apinatomy:conveyingLyph-" ++ iotName iot
            ∨ p == "apinatomy:cloneOf-" ++ iotName iot
           then iotS iot else p
  p

/-- Model of `nindex[sub]["topology"] = obj` (KeyError when the subject has no node
record; with duplicate ids every matching record is updated, where Python
only updates the one its `nindex` dict retained). -/
def setTopology (nodes : List Node) (sub obj : String) : Except PErr (List Node) :=
  if nodes.any (fun n => n.id == sub) then
    .ok (nodes.map (fun n => if n.id == sub then { n with topology := some obj } else n))
  else .error (.keyError sub)

def renameGo (iot : Option String) : List Edge → List Edge → List Node →
    Except PErr (List Edge × List Node)
  | [], acc, nds => .ok (acc, nds)
  | e :: rest, acc, nds =>
    let e2 := { e with pred := renameEdge iot e.pred }
    if e2.pred == Apinatomy.topology_s then do
      let nds2 ← setTopology nds e2.sub e2.obj
      renameGo iot rest (acc ++ [e2]) nds2
    else renameGo iot rest (acc ++ [e2]) nds

structure DeblobResult where
  blob : Blob
  edges : List Edge
  somas : List Edge
  terms : List Edge
  ordering_edges : List Edge
deriving DecidableEq, Repr

/-- Final deblob assembly: deduplicate the edge list ignoring metadata, sort
by `sekey`, prune orphan nodes; the returned convenience slices are computed
from the intermediate (pre-dedup) edge list, exactly as in the source. -/
def mkDeblobResult (e3 : List Edge) (n3 : List Node) : DeblobResult :=
  let final := sortEdges (dedupF (e3.map stripMeta))
  let sos := final.flatMap (fun e => [e.sub, e.obj])
  { blob := { nodes := n3.filter (fun n => decide (n.id ∈ sos)), edges := final },
    edges := e3,
    somas := e3.filter (fun e => e.pred == Apinatomy.internalIn),
    terms := e3.filter (fun e => e.pred == Apinatomy.ontologyTerms),
    ordering_edges := e3.filter (fun e => e.pred == Apinatomy.next) }

/-- The normalizer `Apinatomy.deblob`. With `remove_converge=True` the source evaluates the
undefined name `top` as soon as the post-rename edge list is non-empty, which
raises `NameError`; on an empty edge list the comprehension body never runs
and the call falls through to the normal path. -/
def Apinatomy.deblob (blob : Blob) (remove_converge : Bool) : Except PErr DeblobResult :=
  let iot := Apinatomy.getiot blob
  match nifstd.simplify (deblobChains iot) { blob with edges := levelsFilter blob.edges } with
  | .error e => .error e
  | .ok b2 =>
    match renameGo iot b2.edges [] b2.nodes with
    | .error e => .error e
    | .ok en =>
      if remove_converge ∧ ¬ en.1.isEmpty then
        .error (.nameError "NameError: top is not defined")
      else .ok (mkDeblobResult en.1 en.2)

/-! ## `Apinatomy.isLayer` -/

def Apinatomy.isLayer (blob : Blob) (m : String) : Bool :=
  !(nifstd.ematch blob
      (fun e mm => nifstd.sub e mm && nifstd.pred e Apinatomy.layerIn) m).isEmpty

/-! ## `Apinatomy.find_region_layer` (the Hierarchy Resolver for terminals)

The recursive closures with their `nonlocal` accumulators become an explicit
state record threaded through a fueled traversal. The node index `bindex`
is a lookup function; a missing key is a Python `KeyError`. -/

structure FrlSt where
  collect : List Node := []
  layers : List Node := []
  layersIes : List Node := []
  donel : List String := []
  doner : List String := []
deriving DecidableEq, Repr

def lookupB (bindex : String → Option Node) (k : String) : Except PErr Node :=
  match bindex k with
  | some n => .ok n
  | none => .error (.keyError k)

/-- The inner `select_term` closure: collect layer candidates from the
ontologyTerms / inherited predicates of `m`. -/
def frl_select_term (blob : Blob) (iot : Option String) (bindex : String → Option Node)
    (m : String) (st : FrlSt) : Except PErr FrlSt :=
  blob.edges.foldlM (fun st e =>
    if e.sub == m then
      if e.pred == Apinatomy.ontologyTerms || nifstd.predOpt e iot || e.pred == iotS iot then
        let layer := e.obj
        if layer ∈ st.donel then pure st
        else do
          let nd ← lookupB bindex layer
          if nifstd.predOpt e iot || e.pred == iotS iot then
            pure { st with donel := st.donel ++ [layer], layersIes := st.layersIes ++ [nd] }
          else
            pure { st with donel := st.donel ++ [layer], layers := st.layers ++ [nd] }
      else pure st
    else pure st) st

/-- The outer `select` closure of `find_region_layer`. -/
def frl_select (blob : Blob) (iot : Option String) (bindex : String → Option Node) :
    Nat → String → FrlSt → Except PErr FrlSt
  | 0, _, _ => .error .fuel
  | fuel + 1, m, st =>
    blob.edges.foldlM (fun st e =>
      if e.sub == m then
        if e.pred == Apinatomy.layerIn then do
          let st2 ← frl_select_term blob iot bindex e.sub st
          frl_select blob iot bindex fuel e.obj st2
        else if e.pred == Apinatomy.fasciculatesIn || e.pred == Apinatomy.endsIn then
          frl_select blob iot bindex fuel e.obj st
        else if e.pred == Apinatomy.ontologyTerms then
          if e.obj ∈ st.doner then pure st
          else do
            let nd ← lookupB bindex e.obj
            pure { st with doner := st.doner ++ [e.obj], collect := st.collect ++ [nd] }
        else pure st
      else pure st) st

/-- Lines 539-543: fall back to `[None]` when regions were collected but no
layer candidate appeared (`_nonelayer`), else promote the inherited-predicate
candidates when no plain candidate exists. -/
def frl_layersPostBranch (st : FrlSt) : List (Option Node) × Bool :=
  if st.collect ≠ [] ∧ st.layers = [] ∧ st.layersIes = [] then ([none], true)
  else if st.layersIes ≠ [] ∧ st.layers = [] then (st.layersIes.map some, false)
  else (st.layers.map some, false)

/-- Lines 547-550: drop every layer whose id is in `EXCLUDED_LAYERS`
(`lids` is computed once, before the loop). -/
def frl_exclude (layers : List (Option Node)) : List (Option Node) :=
  let lids := layers.filterMap (fun l => l.map Node.id)
  EXCLUDED_LAYERS.foldl (fun ls bad =>
    if bad ∈ lids.map some then
      ls.filter (fun l => match l with
        | none => true
        | some nd => decide (some nd.id ≠ bad))
    else ls) layers

/-- Lines 552-554: if the exclusion emptied the layers, restore `[None]` so
the counts can still match. -/
def frl_restore (layers2 : List (Option Node)) (nonelayer : Bool) (ies : List Node) :
    List (Option Node) :=
  if layers2 = [] ∧ (nonelayer = true ∨ ies ≠ []) then [none] else layers2

/-- Lines 556-564: remove layers from the region list, enforce the length
invariant (ValueError on mismatch; message abridged to the ids), zip.  -/
def frl_finalize (st : FrlSt) : Except PErr (List (Node × Option Node)) :=
  let pb := frl_layersPostBranch st
  let layersF := frl_restore (frl_exclude pb.1) pb.2 st.layersIes
  let collectF := st.collect.filter (fun c => decide (¬ some c ∈ layersF))
  if collectF.length ≠ layersF.length then
    .error (.valueError ("len not matched "
      ++ String.intercalate "," (collectF.map Node.id) ++ " "
      ++ String.intercalate ","
          (layersF.map (fun l => match l with | none => "None" | some nd => nd.id))))
  else .ok (collectF.zip layersF)

def Apinatomy.find_region_layer (blob : Blob) (edge : Edge)
    (bindex : String → Option Node) (fuel : Nat) :
    Except PErr (List (Node × Option Node)) :=
  match frl_select blob (Apinatomy.getiot blob) bindex fuel edge.sub {} with
  | .error e => .error e
  | .ok st => frl_finalize st

/-! ## `Apinatomy.reclr` (the recursive region/layer collector) -/

structure ReclrSt where
  collect : List (Option String × String) := []
  layer : List String := []
  col : Bool := true
deriving DecidableEq, Repr

/-- The `while l in EXCLUDED_LAYERS` pop loop of `reclr` (entered after the
first candidate has been popped off a multi-element layer list). -/
def popWhileExcluded : String → List String → Option String × List String
  | l, [] => if some l ∈ EXCLUDED_LAYERS then (none, []) else (some l, [])
  | l, r :: rs =>
    if some l ∈ EXCLUDED_LAYERS then popWhileExcluded r rs else (some l, r :: rs)

/-- Model of `[b for b in blob["nodes"] if b["id"] == external][0]["id"]`
(IndexError when no node record matches). -/
def firstNodeId (blob : Blob) (extId : String) : Except PErr String :=
  match blob.nodes.find? (fun b => b.id == extId) with
  | some b => .ok b.id
  | none => .error .indexError

/-- The `select_ext` closure of `reclr`; the cloneOf branch logs a warning
and recurses on the clone target. -/
def reclr_select_ext (blob : Blob) (iot : Option String) :
    Nat → String → ReclrSt → Except PErr ReclrSt
  | 0, _, _ => .error .fuel
  | fuel + 1, m, st =>
    blob.edges.foldlM (fun st e =>
      if e.sub == m then
        if e.pred == Apinatomy.cloneOf then
          reclr_select_ext blob iot fuel e.obj st
        else if e.pred == Apinatomy.ontologyTerms || nifstd.predOpt e iot
              || e.pred == iotS iot then
          if st.col then do
            let lres :=
              if st.layer ≠ [] then
                if st.layer.length > 1 then
                  match st.layer with
                  | l0 :: rest => popWhileExcluded l0 rest
                  | [] => (none, [])   -- unreachable: layer has > 1 elements
                else (some (st.layer.getLastD ""), [])   -- layer.pop() on a singleton
              else (none, st.layer)
            let r ← firstNodeId blob e.obj
            pure { st with collect := st.collect ++ [(lres.1, r)], layer := lres.2 }
          else do
            let l ← firstNodeId blob e.obj
            pure { st with layer := st.layer ++ [l] }
        else pure st
      else pure st) st

/-- The `select` closure of `reclr`: climb layerIn/fasciculatesIn/endsIn/
internalIn, setting `col` from whether the parent is itself a layer. -/
def reclr_select (blob : Blob) (iot : Option String) :
    Nat → String → ReclrSt → Except PErr ReclrSt
  | 0, _, _ => .error .fuel
  | fuel + 1, m, st =>
    blob.edges.foldlM (fun st e =>
      if e.sub == m &&
         (e.pred == Apinatomy.layerIn || e.pred == Apinatomy.fasciculatesIn ||
          e.pred == Apinatomy.endsIn || e.pred == Apinatomy.internalIn) then do
        let st1 := { st with col := !(Apinatomy.isLayer blob e.obj) }
        let st2 ← reclr_select_ext blob iot fuel e.obj st1
        reclr_select blob iot fuel e.obj st2
      else pure st) st

def Apinatomy.reclr (blob : Blob) (start_link : String) (fuel : Nat) :
    Except PErr (List (Option String × String)) :=
  match reclr_select blob (Apinatomy.getiot blob) fuel start_link {} with
  | .error e => .error e
  | .ok st => .ok st.collect

/-! ## `Apinatomy.layer_regions` -/

def Apinatomy.layer_regions (blob : Blob) (start : String) (fuel : Nat) :
    Except PErr (String × List (Option String × String)) :=
  let iot := Apinatomy.getiot blob
  let direct := (nifstd.ematch blob (fun e m => nifstd.sub e m &&
      (nifstd.pred e Apinatomy.internalIn || nifstd.pred e Apinatomy.endsIn ||
       nifstd.pred e Apinatomy.fasciculatesIn)) start).map Edge.obj
  let layers := (direct.flatMap (fun d => nifstd.ematch blob (fun e m =>
      nifstd.sub e m && Apinatomy.isLayer blob m &&
      (nifstd.predOpt e iot || nifstd.pred e (iotS iot) ||
       nifstd.pred e Apinatomy.ontologyTerms)) d)).map Edge.obj
  let layers := layers.filter (fun l => decide (¬ some l ∈ EXCLUDED_LAYERS))
  let lregs :=
    if layers ≠ [] then
      let ldir := (direct.flatMap (fun d => nifstd.ematch blob (fun e m =>
          nifstd.sub e m && nifstd.pred e Apinatomy.layerIn) d)).map Edge.obj
      (ldir.flatMap (fun d => nifstd.ematch blob (fun e m =>
          nifstd.sub e m && !(Apinatomy.isLayer blob m) &&
          (nifstd.predOpt e iot || nifstd.pred e (iotS iot) ||
           nifstd.pred e Apinatomy.ontologyTerms)) d)).map Edge.obj
    else []
  let regions := (direct.flatMap (fun d => nifstd.ematch blob (fun e m =>
      nifstd.sub e m && !(Apinatomy.isLayer blob m) &&
      (nifstd.predOpt e iot || nifstd.pred e (iotS iot) ||
       nifstd.pred e Apinatomy.ontologyTerms)) d)).map Edge.obj
  match Apinatomy.reclr blob start fuel with
  | .error e => .error e
  | .ok lrs =>
    if lregs ≠ [] ∧ regions ≠ [] then .error .assertionError
    else .ok (start, lrs)

/-! ## Terminals -/

def Apinatomy.find_terminals (blob : Blob) (type : String) : List Edge :=
  let iot := Apinatomy.getiot blob
  blob.edges.filter (fun es =>
    es.pred == iotS iot && es.obj == type &&
    !(nifstd.ematch blob (fun e m => nifstd.sub e m &&
        nifstd.pred e Apinatomy.topology_s && nifstd.obj e Apinatomy.BAG) es.sub).isEmpty)

structure TermRL where
  terminal_regions : List (Node × Option Node)
  error : Option String
deriving DecidableEq, Repr

/-- The function `find_terminal_region_layers`: only `ValueError` (the length mismatch)
is caught and converted into an in-band error string; every other exception
propagates, as in the source. -/
def Apinatomy.find_terminal_region_layers (blob : Blob) (type : String)
    (bindex : String → Option Node) (fuel : Nat) : Except PErr TermRL :=
  match (Apinatomy.find_terminals blob type).foldlM (fun acc es => do
      let prs ← Apinatomy.find_region_layer blob es bindex fuel
      pure (acc ++ prs)) ([] : List (Node × Option Node)) with
  | .ok trs => .ok { terminal_regions := trs, error := none }
  | .error (.valueError msg) => .ok { terminal_regions := [], error := some msg }
  | .error e => .error e

/-! ## `anatomical_layer` and `parse_connectivity` -/

/-- An anatomical-layer tuple (primary, rest). Elements are kept as
`Option String` exactly as Python keeps whatever survived the exclusion
filter (after which `None` can in fact no longer appear, since `None` is a
member of `EXCLUDED_LAYERS`). -/
abbrev ALayer := Option String × List (Option String)

/-- The helper `anatomical_layer(pair_list)` (local to `parse_connectivity`): flatten,
drop excluded terms, first survivor is primary. Python raises IndexError on
an empty pair list; every call site guards non-emptiness, we return `none`. -/
def alCandidates (l0 : Option String) (r0 : String)
    (rest : List (Option String × String)) : List (Option String) :=
  ((match l0 with
    | none => [some r0]
    | some l => [some l, some r0]) ++
   rest.flatMap (fun p => [p.1, some p.2])).filter
    (fun l => decide (¬ l ∈ EXCLUDED_LAYERS))

def anatomical_layer (pair_list : List (Option String × String)) : Option ALayer :=
  match pair_list with
  | [] => none
  | (l0, r0) :: rest =>
    match alCandidates l0 r0 rest with
    | [] => none
    | p :: rs => some (p, rs)

/-- Path-start nodes: objects of `lyphs` edges. -/
def Apinatomy.startsOf (blob : Blob) : List String :=
  (blob.edges.filter (fun e => nifstd.pred e Apinatomy.lyphs)).map Edge.obj

/-- The (sub, obj) pairs of all `next`/`next*` edges of the graph. -/
def Apinatomy.nextPairs (blob : Blob) : List (String × String) :=
  (blob.edges.filter (fun e => nifstd.pred e Apinatomy.next ||
      nifstd.pred e Apinatomy.next_s)).map (fun e => (e.sub, e.obj))

/-- The `nexts` comprehension of `parse_connectivity`: the select lambda
ignores its match argument, so each path-start contributes the (sub, obj)
pairs of *all* `next`/`next*` edges of the graph. -/
def Apinatomy.nexts (blob : Blob) : List (String × String) :=
  (Apinatomy.startsOf blob).flatMap (fun _ => Apinatomy.nextPairs blob)

abbrev LR := String × List (Option String × String)

/-- Deterministic sort key for `sorted(set(...))` over `layer_regions` pairs.
(the Python tuple ordering can raise TypeError when comparing None with str;
this total order is a deterministic stand-in. Only the order, never the
membership, differs.) -/
def lrKey (x : LR) : List (List Nat) :=
  strKey x.1 :: x.2.flatMap (fun p =>
    [ (match p.1 with | none => [] | some s => 0 :: strKey s), 1 :: strKey p.2 ])

def lrpLe (a b : LR × LR) : Bool :=
  decide (llCmp (lrKey a.1 ++ [[9]] ++ lrKey a.2) (lrKey b.1 ++ [[9]] ++ lrKey b.2) ≠ .gt)

structure ConnResult where
  axons : List ALayer
  dendrites : List ALayer
  connectivity : List (ALayer × ALayer)
  errors : List String
deriving DecidableEq, Repr

/-- Model of `[al for al in set(anatomical_layer([((l.id if l else l), r.id)]) ...)
if al is not None]`. -/
def termALayers (trs : List (Node × Option Node)) : List ALayer :=
  (dedupF (trs.map (fun rl => anatomical_layer [ (rl.2.map Node.id, rl.1.id) ]))).filterMap id

/-- The `connectivity` comprehension: pairs of distinct, non-empty resolved
location lists, reduced to anatomical layers, both sides non-None and
different. -/
def connPairs (nodesLR : List (LR × LR)) : List (ALayer × ALayer) :=
  let cands := nodesLR.filter (fun p =>
    decide (p.1.2 ≠ p.2.2) && decide (p.1.2.length ≠ 0) && decide (p.2.2.length ≠ 0))
  let pairsOpt := dedupF (cands.map (fun p =>
    (anatomical_layer p.1.2, anatomical_layer p.2.2)))
  pairsOpt.filterMap (fun q => match q with
    | (some a, some b) => if a ≠ b then some (a, b) else none
    | _ => none)

/-- The `errors` field. The conditional expression of the source parses as
`[axon] if axon_err else (([] + [dendrite]) if dendrite_err else [])`:
when the axon side failed, a dendrite failure is not reported. -/
def connErrors (atr dtr : TermRL) : List String :=
  match atr.error with
  | some ae => ["find axon: " ++ ae]
  | none =>
    match dtr.error with
    | some de => [] ++ ["find dendrite: " ++ de]
    | none => []

def Apinatomy.parse_connectivity (data : Blob) (fuel : Nat) : Except PErr ConnResult :=
  match Apinatomy.deblob data false with
  | .error e => .error e
  | .ok r =>
    let blob := r.blob
    match (Apinatomy.nexts blob).mapM (fun p =>
        (match Apinatomy.layer_regions blob p.1 fuel with
        | .error e => .error e
        | .ok a =>
          match Apinatomy.layer_regions blob p.2 fuel with
          | .error e => .error e
          | .ok b => .ok (a, b) : Except PErr (LR × LR))) with
    | .error e => .error e
    | .ok lrPairs =>
      let nodesLR := sortByB lrpLe (dedupF lrPairs)
      let bindex := fun i => blob.nodes.find? (fun n => n.id == i)
      match Apinatomy.find_terminal_region_layers blob Apinatomy.axon bindex fuel with
      | .error e => .error e
      | .ok atr =>
        match Apinatomy.find_terminal_region_layers blob Apinatomy.dendrite bindex fuel with
        | .error e => .error e
        | .ok dtr =>
          .ok { axons := termALayers atr.terminal_regions,
                dendrites := termALayers dtr.terminal_regions,
                connectivity := connPairs nodesLR,
                errors := connErrors atr dtr }

/-! ## Spec-modelled reachability (for the refinement comparison of the
`nexts` stage)

The spec describes the connectivity pairs as obtained by *following*
`next`/`next*` edges *from the path-start nodes*. The following definitions
formalise those words (they are deliberately NOT a translation of the code,
which applies no reachability restriction): a pair contributes only when the
subject of the edge is reachable from a start along `next`/`next*` edges. -/

def specReachClose (blob : Blob) : Nat → List String → List String
  | 0, acc => acc
  | fuel + 1, acc =>
    let nxt := dedupF (((blob.edges.filter (fun e =>
        (nifstd.pred e Apinatomy.next || nifstd.pred e Apinatomy.next_s) &&
        decide (e.sub ∈ acc))).map Edge.obj).filter (fun x => decide (¬ x ∈ acc)))
    if nxt.isEmpty then acc else specReachClose blob fuel (acc ++ nxt)

def specReachable (blob : Blob) : List String :=
  specReachClose blob blob.edges.length (dedupF (Apinatomy.startsOf blob))

def specNextPairs (blob : Blob) : List (String × String) :=
  (blob.edges.filter (fun e =>
    (nifstd.pred e Apinatomy.next || nifstd.pred e Apinatomy.next_s) &&
    decide (e.sub ∈ specReachable blob))).map (fun e => (e.sub, e.obj))

/-! ## Rule-triggering predicates of the normalizer

The set of predicates that can make any deblob rule fire on a graph with no
detected inherited predicate: the levels pre-filter, the six collapse
chains (including the two schema-detection predicates), the rename table
(including the `None`-interpolated chain names) and the topology move. -/

def BAD_PREDS : List String :=
  [ "apinatomy:levels", "apinatomy:target", "apinatomy:rootOf",
    "apinatomy:conveyingLyph", "apinatomy:topology",
    "apinatomy:conveys", "apinatomy:source", "apinatomy:sourceOf",
    "apinatomy:cloneOf",
    "apinatomy:inheritedExternal", "apinatomy:inheritedOntologyTerms",
    "apinatomy:nextChainStartLevels",
    "apinatomy:topology*",
    "apinatomy:target-apinatomy:rootOf-apinatomy:levels",
    "apinatomy:conveys-apinatomy:source-apinatomy:sourceOf",
    "apinatomy:conveys-apinatomy:target-apinatomy:sourceOf",
    "apinatomy:conveyingLyph-apinatomy:topology",
    "apinatomy:conveyingLyph-None", "apinatomy:cloneOf-None" ]

/-! ## Concrete fixtures for the claims -/

def nd (s : String) : Node := { id := s }

def eg (s p o : String) : Edge := { sub := s, pred := p, obj := o }

def egm (s p o m : String) : Edge := { sub := s, pred := p, obj := o, meta := some m }

/-- C1: the chain-collapsing example graph of the spec. -/
def c1blob : Blob :=
  { nodes := [nd "A", nd "B", nd "C", nd "D"],
    edges := [ eg "A" "apinatomy:target" "B",
               eg "B" "apinatomy:rootOf" "C",
               eg "C" "apinatomy:levels" "D" ] }

/-- C4: a graph whose dendrite terminal resolution mismatches lengths while
the axon side resolves: the dendrite terminal DX ends in MD, which is in
layer WD but whose own ontology term is the excluded `blood`; the axon
terminal AX ends in WA with ontology term RA. The Q edge pins the detected
schema variant to `inheritedExternal`. -/
def gDfail : Blob :=
  { nodes := [nd "Q", nd "Q2", nd "AX", nd "SAO:280355188", nd "apinatomy:BAG",
              nd "WA", nd "RA", nd "DX", nd "SAO:420754792", nd "MD", nd "WD",
              nd "UBERON:0000178", nd "RD"],
    edges := [ eg "Q" "apinatomy:inheritedExternal" "Q2",
               eg "AX" "apinatomy:inheritedExternal*" "SAO:280355188",
               eg "AX" "apinatomy:topology*" "apinatomy:BAG",
               eg "AX" "apinatomy:endsIn" "WA",
               eg "WA" "apinatomy:ontologyTerms" "RA",
               eg "DX" "apinatomy:inheritedExternal*" "SAO:420754792",
               eg "DX" "apinatomy:topology*" "apinatomy:BAG",
               eg "DX" "apinatomy:endsIn" "MD",
               eg "MD" "apinatomy:layerIn" "WD",
               eg "MD" "apinatomy:ontologyTerms" "UBERON:0000178",
               eg "WD" "apinatomy:ontologyTerms" "RD" ] }

/-- C4: the same dendrite-side failure as `gDfail`, with the axon side now
failing in the same way (AX ends in MA, mirroring MD). -/
def gBoth : Blob :=
  { nodes := [nd "Q", nd "Q2", nd "AX", nd "SAO:280355188", nd "apinatomy:BAG",
              nd "MA", nd "WA", nd "RA", nd "UBERON:0000178",
              nd "DX", nd "SAO:420754792", nd "MD", nd "WD", nd "RD"],
    edges := [ eg "Q" "apinatomy:inheritedExternal" "Q2",
               eg "AX" "apinatomy:inheritedExternal*" "SAO:280355188",
               eg "AX" "apinatomy:topology*" "apinatomy:BAG",
               eg "AX" "apinatomy:endsIn" "MA",
               eg "MA" "apinatomy:layerIn" "WA",
               eg "MA" "apinatomy:ontologyTerms" "UBERON:0000178",
               eg "WA" "apinatomy:ontologyTerms" "RA",
               eg "DX" "apinatomy:inheritedExternal*" "SAO:420754792",
               eg "DX" "apinatomy:topology*" "apinatomy:BAG",
               eg "DX" "apinatomy:endsIn" "MD",
               eg "MD" "apinatomy:layerIn" "WD",
               eg "MD" "apinatomy:ontologyTerms" "UBERON:0000178",
               eg "WD" "apinatomy:ontologyTerms" "RD" ] }

/-- C5: the empty raw graph. -/
def emptyBlob : Blob := { nodes := [], edges := [] }

/-- C6: one path start S (object of a lyphs edge) and one next edge U→V
that is not reachable from S. -/
def g6 : Blob :=
  { nodes := [nd "P", nd "S", nd "U", nd "V"],
    edges := [ eg "P" "apinatomy:lyphs" "S", eg "U" "apinatomy:next" "V" ] }

/-- C7: a single internal-in edge carrying metadata. -/
def g7 : Blob :=
  { nodes := [nd "A", nd "B"],
    edges := [ egm "A" "apinatomy:internalIn" "B" "m" ] }

/-- C8: any graph with at least one edge reaches the undefined name. -/
def g8 : Blob :=
  { nodes := [nd "A", nd "B"], edges := [ eg "A" "p" "B" ] }

/-- C9: a levels edge surviving the pre-filter next to a
nextChainStartLevels edge that is renamed to `next` after the filter ran. -/
def g9 : Blob :=
  { nodes := [nd "X", nd "Y", nd "D"],
    edges := [ eg "X" "apinatomy:levels" "D",
               eg "Y" "apinatomy:nextChainStartLevels" "D" ] }

/-- C9 witness: a graph touching no rule of the normalizer. -/
def g9i : Blob :=
  { nodes := [nd "P", nd "S"], edges := [ eg "P" "apinatomy:lyphs" "S" ] }

/-- C7/C10 witness: one inert edge carrying metadata. -/
def g10 : Blob :=
  { nodes := [nd "A", nd "B"], edges := [ egm "A" "apinatomy:annotates" "B" "k" ] }

/-- C10 witness: the deblob result of `g10`, spelled out. -/
def r10val : DeblobResult :=
  { blob := { nodes := [nd "A", nd "B"],
              edges := [ eg "A" "apinatomy:annotates" "B" ] },
    edges := [ egm "A" "apinatomy:annotates" "B" "k" ],
    somas := [], terms := [], ordering_edges := [] }

/-- C2 witness: a terminal T ending in W whose ontology term is R. -/
def blob2w : Blob :=
  { nodes := [nd "T", nd "W", nd "R"],
    edges := [ eg "T" "apinatomy:endsIn" "W", eg "W" "apinatomy:ontologyTerms" "R" ] }

def edge2w : Edge := eg "T" "apinatomy:endsIn" "W"

def bindex2w : String → Option Node := fun s => blob2w.nodes.find? (fun n => n.id == s)

/-- C2 witness: a resolver state whose only layer candidates are inherited
and excluded. -/
def st2w : FrlSt := { collect := [nd "R"], layersIes := [nd "UBERON:0000178"] }

/-- C3 witness value: the connectivity result of `gDfail`. -/
def r3val : ConnResult :=
  { axons := [(some "RA", [])],
    dendrites := [],
    connectivity := [],
    errors := ["find dendrite: len not matched UBERON:0000178,RD "] }

/-! ## Helper lemmas and claim theorems -/

theorem natLCmp_eq_iff : ∀ a b : List Nat, natLCmp a b = .eq ↔ a = b := by
  intro a
  induction a with
  | nil => intro b; cases b <;> simp [natLCmp]
  | cons x xs ih =>
    intro b
    cases b with
    | nil => simp [natLCmp]
    | cons y ys =>
      simp only [natLCmp]
      rcases Nat.lt_trichotomy x y with h | h | h
      · rw [if_pos h]
        constructor
        · intro hc; exact absurd hc (by simp)
        · intro hc
          injection hc with h1 h2
          exact absurd h1 (by omega)
      · subst h
        rw [if_neg (Nat.lt_irrefl x), if_neg (Nat.lt_irrefl x), ih ys]
        simp
      · rw [if_neg (by omega), if_pos h]
        constructor
        · intro hc; exact absurd hc (by simp)
        · intro hc
          injection hc with h1 h2
          exact absurd h1 (by omega)

theorem natLCmp_swap : ∀ a b : List Nat, natLCmp b a = (natLCmp a b).swap := by
  intro a
  induction a with
  | nil => intro b; cases b <;> simp [natLCmp, Ordering.swap]
  | cons x xs ih =>
    intro b
    cases b with
    | nil => simp [natLCmp, Ordering.swap]
    | cons y ys =>
      simp only [natLCmp]
      rcases Nat.lt_trichotomy x y with h | h | h
      · have h2 : ¬ y < x := by omega
        simp only [if_pos h, if_neg h2]
        rfl
      · subst h
        simp only [if_neg (Nat.lt_irrefl x)]
        exact ih ys
      · have h2 : ¬ x < y := by omega
        simp only [if_pos h, if_neg h2]
        rfl

theorem natLCmp_lt_trans :
    ∀ a b c : List Nat, natLCmp a b = .lt → natLCmp b c = .lt → natLCmp a c = .lt := by
  intro a
  induction a with
  | nil =>
    intro b c hab hbc
    cases b with
    | nil => simp [natLCmp] at hab
    | cons y ys => cases c with
      | nil => simp [natLCmp] at hbc
      | cons z zs => simp [natLCmp]
  | cons x xs ih =>
    intro b c hab hbc
    cases b with
    | nil => simp [natLCmp] at hab
    | cons y ys =>
      cases c with
      | nil => simp [natLCmp] at hbc
      | cons z zs =>
        simp only [natLCmp] at hab hbc ⊢
        rcases Nat.lt_trichotomy x y with hxy | hxy | hxy
        · rcases Nat.lt_trichotomy y z with hyz | hyz | hyz
          · rw [if_pos (by omega)]
          · rw [if_pos (by omega)]
          · have h1 : ¬ y < z := by omega
            rw [if_neg h1, if_pos hyz] at hbc
            exact absurd hbc (by simp)
        · subst hxy
          rcases Nat.lt_trichotomy x z with hyz | hyz | hyz
          · rw [if_pos hyz]
          · subst hyz
            rw [if_neg (Nat.lt_irrefl x), if_neg (Nat.lt_irrefl x)] at hab hbc ⊢
            exact ih ys zs hab hbc
          · have h1 : ¬ x < z := by omega
            rw [if_neg h1, if_pos hyz] at hbc
            exact absurd hbc (by simp)
        · have h1 : ¬ x < y := by omega
          rw [if_neg h1, if_pos hxy] at hab
          exact absurd hab (by simp)

theorem llCmp_eq_iff : ∀ a b : List (List Nat), llCmp a b = .eq ↔ a = b := by
  intro a
  induction a with
  | nil => intro b; cases b <;> simp [llCmp]
  | cons x xs ih =>
    intro b
    cases b with
    | nil => simp [llCmp]
    | cons y ys =>
      simp only [llCmp]
      cases hxy : natLCmp x y with
      | lt =>
        constructor
        · intro h; exact absurd h (by simp)
        · intro h
          injection h with h1 h2
          rw [h1, (natLCmp_eq_iff y y).mpr rfl] at hxy
          exact absurd hxy (by simp)
      | gt =>
        constructor
        · intro h; exact absurd h (by simp)
        · intro h
          injection h with h1 h2
          rw [h1, (natLCmp_eq_iff y y).mpr rfl] at hxy
          exact absurd hxy (by simp)
      | eq =>
        have hx : x = y := (natLCmp_eq_iff x y).mp hxy
        subst hx
        rw [ih ys]
        simp

theorem llCmp_swap : ∀ a b : List (List Nat), llCmp b a = (llCmp a b).swap := by
  intro a
  induction a with
  | nil => intro b; cases b <;> simp [llCmp, Ordering.swap]
  | cons x xs ih =>
    intro b
    cases b with
    | nil => simp [llCmp, Ordering.swap]
    | cons y ys =>
      simp only [llCmp]
      cases hxy : natLCmp x y with
      | lt => rw [natLCmp_swap x y, hxy]; rfl
      | gt => rw [natLCmp_swap x y, hxy]; rfl
      | eq => rw [natLCmp_swap x y, hxy]; exact ih ys

theorem llCmp_cons_ne_gt (x z : List Nat) (xs zs : List (List Nat)) :
    llCmp (x :: xs) (z :: zs) ≠ .gt ↔
      natLCmp x z = .lt ∨ (natLCmp x z = .eq ∧ llCmp xs zs ≠ .gt) := by
  simp only [llCmp]
  cases natLCmp x z <;> simp

theorem llCmp_le_trans :
    ∀ a b c : List (List Nat), llCmp a b ≠ .gt → llCmp b c ≠ .gt → llCmp a c ≠ .gt := by
  intro a
  induction a with
  | nil =>
    intro b c hab hbc
    cases c with
    | nil => simp [llCmp]
    | cons z zs => simp [llCmp]
  | cons x xs ih =>
    intro b c hab hbc
    cases b with
    | nil => exact absurd rfl hab
    | cons y ys =>
      cases c with
      | nil => exact absurd rfl hbc
      | cons z zs =>
        rw [llCmp_cons_ne_gt] at hab hbc ⊢
        rcases hab with hab | ⟨hab1, hab2⟩
        · rcases hbc with hbc | ⟨hbc1, hbc2⟩
          · exact Or.inl (natLCmp_lt_trans x y z hab hbc)
          · have hy : y = z := (natLCmp_eq_iff y z).mp hbc1
            subst hy
            exact Or.inl hab
        · have hx : x = y := (natLCmp_eq_iff x y).mp hab1
          subst hx
          rcases hbc with hbc | ⟨hbc1, hbc2⟩
          · exact Or.inl hbc
          · exact Or.inr ⟨hbc1, ih ys zs hab2 hbc2⟩

theorem insertByB_perm (le : α → α → Bool) (a : α) :
    ∀ l : List α, (insertByB le a l).Perm (a :: l) := by
  intro l
  induction l with
  | nil => simp [insertByB]
  | cons b t ih =>
    simp only [insertByB]
    split
    · exact List.Perm.refl _
    · exact ((ih.cons b).trans (List.Perm.swap a b t))

theorem sortByB_perm (le : α → α → Bool) :
    ∀ l : List α, (sortByB le l).Perm l := by
  intro l
  induction l with
  | nil => simp [sortByB]
  | cons a t ih =>
    simp only [sortByB, List.foldr]
    exact (insertByB_perm le a _).trans (ih.cons a)

theorem mem_sortByB (le : α → α → Bool) (l : List α) (a : α) :
    a ∈ sortByB le l ↔ a ∈ l :=
  (sortByB_perm le l).mem_iff

theorem pairwise_insertByB (le : α → α → Bool)
    (htot : ∀ a b : α, le a b = true ∨ le b a = true)
    (htrans : ∀ a b c : α, le a b = true → le b c = true → le a c = true)
    (a : α) : ∀ l : List α, l.Pairwise (fun x y => le x y = true) →
      (insertByB le a l).Pairwise (fun x y => le x y = true) := by
  intro l
  induction l with
  | nil => intro _; simp [insertByB]
  | cons b t ih =>
    intro hp
    rw [List.pairwise_cons] at hp
    obtain ⟨hb, ht⟩ := hp
    simp only [insertByB]
    split
    · rename_i hab
      rw [List.pairwise_cons]
      refine ⟨?_, List.pairwise_cons.mpr ⟨hb, ht⟩⟩
      intro x hx
      rcases List.mem_cons.mp hx with hx | hx
      · rw [hx]; exact hab
      · exact htrans a b x hab (hb x hx)
    · rename_i hab
      have hba : le b a = true := by
        rcases htot a b with h | h
        · exact absurd h hab
        · exact h
      rw [List.pairwise_cons]
      refine ⟨?_, ih ht⟩
      intro x hx
      have := (insertByB_perm le a t).mem_iff.mp hx
      rcases List.mem_cons.mp this with hx' | hx'
      · rw [hx']; exact hba
      · exact hb x hx'

theorem pairwise_sortByB (le : α → α → Bool)
    (htot : ∀ a b : α, le a b = true ∨ le b a = true)
    (htrans : ∀ a b c : α, le a b = true → le b c = true → le a c = true)
    (l : List α) : (sortByB le l).Pairwise (fun x y => le x y = true) := by
  induction l with
  | nil => simp [sortByB]
  | cons a t ih =>
    simp only [sortByB, List.foldr]
    exact pairwise_insertByB le htot htrans a _ ih

theorem sortByB_eq_self (le : α → α → Bool) :
    ∀ l : List α, l.Pairwise (fun x y => le x y = true) → sortByB le l = l := by
  intro l
  induction l with
  | nil => intro _; rfl
  | cons a t ih =>
    intro hp
    rw [List.pairwise_cons] at hp
    obtain ⟨ha, ht⟩ := hp
    simp only [sortByB, List.foldr] at *
    rw [ih ht]
    cases t with
    | nil => rfl
    | cons b t2 =>
      simp only [insertByB]
      rw [if_pos (ha b (by simp))]

theorem mem_dedupFGo [DecidableEq α] :
    ∀ (l seen : List α) (x : α), x ∈ dedupFGo l seen ↔ x ∈ l ∧ x ∉ seen := by
  intro l
  induction l with
  | nil => intro seen x; simp [dedupFGo]
  | cons a t ih =>
    intro seen x
    simp only [dedupFGo]
    split
    · rename_i ha
      rw [ih seen x]
      simp only [List.mem_cons]
      constructor
      · rintro ⟨h1, h2⟩; exact ⟨Or.inr h1, h2⟩
      · rintro ⟨h1 | h1, h2⟩
        · exact absurd (h1 ▸ ha) h2
        · exact ⟨h1, h2⟩
    · rename_i ha
      simp only [List.mem_cons, ih (seen ++ [a]) x, List.mem_append,
        List.mem_singleton]
      constructor
      · rintro (h | ⟨h1, h2⟩)
        · exact ⟨Or.inl h, h ▸ ha⟩
        · exact ⟨Or.inr h1, fun hc => h2 (Or.inl hc)⟩
      · rintro ⟨h1 | h1, h2⟩
        · exact Or.inl h1
        · by_cases hxa : x = a
          · exact Or.inl hxa
          · exact Or.inr ⟨h1, by simp [h2, hxa]⟩

theorem mem_dedupF [DecidableEq α] : ∀ (l : List α) (x : α), x ∈ dedupF l ↔ x ∈ l := by
  intro l x
  rw [dedupF, mem_dedupFGo]
  simp

theorem nodup_dedupFGo [DecidableEq α] :
    ∀ l seen : List α, (dedupFGo l seen).Nodup := by
  intro l
  induction l with
  | nil => intro seen; simp [dedupFGo]
  | cons a t ih =>
    intro seen
    simp only [dedupFGo]
    split
    · exact ih seen
    · rw [List.nodup_cons]
      refine ⟨?_, ih (seen ++ [a])⟩
      intro hmem
      have h2 := ((mem_dedupFGo t (seen ++ [a]) a).mp hmem).2
      simp at h2

theorem nodup_dedupF [DecidableEq α] : ∀ l : List α, (dedupF l).Nodup :=
  fun l => nodup_dedupFGo l []

theorem dedupFGo_eq_self [DecidableEq α] :
    ∀ l seen : List α, l.Nodup → (∀ x ∈ l, x ∉ seen) → dedupFGo l seen = l := by
  intro l
  induction l with
  | nil => intro seen _ _; rfl
  | cons a t ih =>
    intro seen hnd hdisj
    rw [List.nodup_cons] at hnd
    simp only [dedupFGo]
    rw [if_neg (hdisj a (by simp))]
    rw [ih (seen ++ [a]) hnd.2]
    intro x hx
    simp only [List.mem_append, List.mem_singleton]
    rintro (h | h)
    · exact hdisj x (by simp [hx]) h
    · exact hnd.1 (h ▸ hx)

theorem dedupF_eq_self [DecidableEq α] : ∀ l : List α, l.Nodup → dedupF l = l :=
  fun l h => dedupFGo_eq_self l [] h (by simp)

theorem edgeLeB_total : ∀ a b : Edge, edgeLeB a b = true ∨ edgeLeB b a = true := by
  intro a b
  by_cases h : llCmp (sekey a) (sekey b) = .gt
  · right
    have hs := llCmp_swap (sekey a) (sekey b)
    rw [h] at hs
    simp only [edgeLeB, decide_eq_true_eq, hs]
    simp [Ordering.swap]
  · left
    simp only [edgeLeB, decide_eq_true_eq]
    exact h

theorem edgeLeB_trans :
    ∀ a b c : Edge, edgeLeB a b = true → edgeLeB b c = true → edgeLeB a c = true := by
  intro a b c hab hbc
  simp only [edgeLeB, decide_eq_true_eq] at hab hbc ⊢
  exact llCmp_le_trans _ _ _ hab hbc

/-! ## Claims -/

/-- C1: For a graph whose edges are exactly (A,target,B), (B,rootOf,C),
(C,levels,D) with nodes A,B,C,D, normalization (deblob, via simplify and the
rename step) produces a graph whose edge set is exactly the single synthetic
edge (A,next*,D); none of the three original edges remains. -/
theorem c1_chain_collapse :
    (okValue (Apinatomy.deblob c1blob false)).map (fun r =>
      (r.blob.edges,
       decide (eg "A" "apinatomy:target" "B" ∈ r.blob.edges),
       decide (eg "B" "apinatomy:rootOf" "C" ∈ r.blob.edges),
       decide (eg "C" "apinatomy:levels" "D" ∈ r.blob.edges)))
    = some ([eg "A" "apinatomy:next*" "D"], false, false, false) := by rfl

/-- C5: `parse_connectivity` on the empty graph returns the empty result with
no error entries, not a failure. -/
theorem c5_empty_graph_result :
    Apinatomy.parse_connectivity emptyBlob 10
      = .ok { axons := [], dendrites := [], connectivity := [], errors := [] } := by rfl

/-- C8: with `remove_converge=True`, `deblob` evaluates the undefined name
`top` (line 325) as soon as one edge survives to the filter and raises
NameError instead of dropping the topology*/axon/dendrite edges; the same
graph normalizes without fault when the flag is off. -/
theorem c8_remove_converge_raises :
    Apinatomy.deblob g8 true = .error (.nameError "NameError: top is not defined")
    ∧ errValue (Apinatomy.deblob g8 false) = none := ⟨rfl, rfl⟩

/-- C4: the dendrite side of `gDfail` and `gBoth` fails identically (length
mismatch on the excluded-layer location), yet its error string is recorded
only while the axon side succeeds: on `gBoth`, where the axon side fails the
same way, the errors list of the result contains only the axon entry — the
conditional-expression precedence in the `errors` field drops the dendrite
message, contradicting the per-terminal-type scoping the claim states. -/
theorem c4_dendrite_error_dropped_when_axon_fails :
    (okValue (Apinatomy.parse_connectivity gDfail 10)).map (fun r => (r.axons, r.errors))
      = some ([(some "RA", [])],
              ["find dendrite: len not matched UBERON:0000178,RD "])
    ∧ (okValue (Apinatomy.parse_connectivity gBoth 10)).map (fun r => r.errors)
      = some ["find axon: len not matched UBERON:0000178,RA "] := ⟨rfl, rfl⟩

/-- C6 counterexample: after normalizing `g6`, the pair (U,V) of the next
edge U→V enters the `nexts` stage of `parse_connectivity` although U is not
reachable from any path-start node by following next/next* edges (the
spec-modelled reachable pair set is empty). -/
theorem c6_counterexample :
    (okValue (Apinatomy.deblob g6 false)).map (fun r =>
      (Apinatomy.nexts r.blob, specNextPairs r.blob))
      = some ([("U", "V")], []) := by rfl

/-- C7 counterexample: on `g7` the returned somas slice keeps the
metadata-carrying pre-dedup edge, which is not an element of the returned
deduplicated (metadata-stripped) edge set of the returned graph. -/
theorem c7_counterexample :
    (okValue (Apinatomy.deblob g7 false)).map (fun r =>
      (r.somas, r.blob.edges.filter (fun e => e.pred == Apinatomy.internalIn)))
      = some ([egm "A" "apinatomy:internalIn" "B" "m"],
              [eg "A" "apinatomy:internalIn" "B"]) := by rfl

/-- C9 counterexample: normalizing `g9` keeps the levels edge (its object is
not yet the object of a `next` edge when the pre-filter runs) and renames
nextChainStartLevels to `next` afterwards; normalizing the result again
deletes the levels edge and prunes node X — deblob is not idempotent. -/
theorem c9_counterexample :
    (okValue (Apinatomy.deblob g9 false)).map (fun r => (r.blob.edges, r.blob.nodes))
      = some ([eg "X" "apinatomy:levels" "D", eg "Y" "apinatomy:next" "D"],
              [nd "X", nd "Y", nd "D"])
    ∧ ((okValue (Apinatomy.deblob g9 false)).bind (fun r =>
        (okValue (Apinatomy.deblob r.blob false)).map (fun r2 => (r2.blob.edges, r2.blob.nodes))))
      = some ([eg "Y" "apinatomy:next" "D"], [nd "Y", nd "D"]) := ⟨rfl, rfl⟩

/-- Helper: a map that fixes every member is the identity. -/
theorem map_id_of_mem : ∀ (l : List α) (f : α → α), (∀ x ∈ l, f x = x) → l.map f = l := by
  intro l f
  induction l with
  | nil => intro _; rfl
  | cons a t ih =>
    intro h
    simp only [List.map_cons]
    rw [h a (by simp), ih (fun x hx => h x (by simp [hx]))]

/-- C7 (amended): the convenience slices returned by `deblob` are predicate
filters of the returned intermediate edge list (the list as it stands after
simplification and renaming, before metadata-stripping deduplication and
sorting) — not of the final normalized graph. -/
theorem c7_slices_are_pre_dedup_filters :
    ∀ (b : Blob) (r : DeblobResult), Apinatomy.deblob b false = .ok r →
      r.somas = r.edges.filter (fun e => e.pred == Apinatomy.internalIn) ∧
      r.terms = r.edges.filter (fun e => e.pred == Apinatomy.ontologyTerms) ∧
      r.ordering_edges = r.edges.filter (fun e => e.pred == Apinatomy.next) := by
  intro b r h
  simp only [Apinatomy.deblob] at h
  cases hs : nifstd.simplify (deblobChains (Apinatomy.getiot b))
      { b with edges := levelsFilter b.edges } with
  | error e => simp only [hs] at h; exact Except.noConfusion h
  | ok b2 =>
    simp only [hs] at h
    cases hr : renameGo (Apinatomy.getiot b) b2.edges [] b2.nodes with
    | error e => simp only [hr] at h; exact Except.noConfusion h
    | ok en =>
      simp only [hr, Bool.false_eq_true, false_and, if_neg, reduceIte] at h
      injection h with h
      subst h
      exact ⟨rfl, rfl, rfl⟩

/-- C7 witness: the amended claim applied at the concrete graph `g10`. -/
theorem c7_witness :
    Apinatomy.deblob g10 false = .ok r10val
    ∧ r10val.somas = r10val.edges.filter (fun e => e.pred == Apinatomy.internalIn) :=
  ⟨rfl, (c7_slices_are_pre_dedup_filters g10 r10val rfl).1⟩

/-- C2: (1) whenever `find_region_layer` returns, the returned pair list is
the zip of the finalized region list and layer list after the internal check
that their lengths are equal — never a truncating zip of unequal lists;
every other outcome is a raised error (the length mismatch). (2) When the
exclusion step removes every layer candidate of a location and either the
none-layer flag was set or inherited candidates existed, the layer resolves
to null while the collected region slot is still emitted. -/
theorem c2_frl_length_invariant :
    (∀ (blob : Blob) (edge : Edge) (bindex : String → Option Node) (fuel : Nat)
        (pairs : List (Node × Option Node)),
        Apinatomy.find_region_layer blob edge bindex fuel = .ok pairs →
        ∃ st : FrlSt,
          frl_select blob (Apinatomy.getiot blob) bindex fuel edge.sub {} = .ok st ∧
          (st.collect.filter (fun c => decide (¬ some c ∈
              frl_restore (frl_exclude (frl_layersPostBranch st).1)
                (frl_layersPostBranch st).2 st.layersIes))).length
            = (frl_restore (frl_exclude (frl_layersPostBranch st).1)
                (frl_layersPostBranch st).2 st.layersIes).length ∧
          pairs = (st.collect.filter (fun c => decide (¬ some c ∈
              frl_restore (frl_exclude (frl_layersPostBranch st).1)
                (frl_layersPostBranch st).2 st.layersIes))).zip
              (frl_restore (frl_exclude (frl_layersPostBranch st).1)
                (frl_layersPostBranch st).2 st.layersIes))
    ∧ (∀ st : FrlSt,
        frl_exclude (frl_layersPostBranch st).1 = [] →
        ((frl_layersPostBranch st).2 = true ∨ st.layersIes ≠ []) →
        st.collect.length = 1 →
        frl_finalize st = .ok (st.collect.map (fun c => (c, none)))) := by
  constructor
  · intro blob edge bindex fuel pairs h
    simp only [Apinatomy.find_region_layer] at h
    cases hsel : frl_select blob (Apinatomy.getiot blob) bindex fuel edge.sub {} with
    | error e => simp only [hsel] at h; exact Except.noConfusion h
    | ok st =>
      simp only [hsel] at h
      refine ⟨st, rfl, ?_⟩
      simp only [frl_finalize] at h
      split at h
      · exact Except.noConfusion h
      · rename_i hlen
        injection h with h
        exact ⟨not_ne_iff.mp hlen, h.symm⟩
  · intro st hexc hcond hlen1
    simp only [frl_finalize, hexc]
    have hres : frl_restore [] (frl_layersPostBranch st).2 st.layersIes = [none] := by
      unfold frl_restore
      rw [if_pos ⟨rfl, hcond⟩]
    rw [hres]
    have hfil : st.collect.filter
        (fun c => decide (¬ some c ∈ [(none : Option Node)])) = st.collect := by
      rw [List.filter_eq_self]
      intro c _
      simp
    rw [hfil]
    rw [if_neg (by simp [hlen1])]
    obtain ⟨c, hc⟩ : ∃ c, st.collect = [c] := by
      cases hcl : st.collect with
      | nil => rw [hcl] at hlen1; cases hlen1
      | cons a t =>
        cases t with
        | nil => exact ⟨a, rfl⟩
        | cons b t2 => rw [hcl] at hlen1; simp at hlen1
    rw [hc]
    rfl

/-- C2 witness: the theorem applied at a concrete graph (a terminal ending
in a region with no layer) and at a concrete resolver state whose only layer
candidates are excluded inherited terms. -/
theorem c2_witness :
    (∃ st : FrlSt,
      frl_select blob2w (Apinatomy.getiot blob2w) bindex2w 10 edge2w.sub {} = .ok st ∧
      (st.collect.filter (fun c => decide (¬ some c ∈
          frl_restore (frl_exclude (frl_layersPostBranch st).1)
            (frl_layersPostBranch st).2 st.layersIes))).length
        = (frl_restore (frl_exclude (frl_layersPostBranch st).1)
            (frl_layersPostBranch st).2 st.layersIes).length ∧
      [(nd "R", (none : Option Node))] = (st.collect.filter (fun c => decide (¬ some c ∈
          frl_restore (frl_exclude (frl_layersPostBranch st).1)
            (frl_layersPostBranch st).2 st.layersIes))).zip
          (frl_restore (frl_exclude (frl_layersPostBranch st).1)
            (frl_layersPostBranch st).2 st.layersIes))
    ∧ frl_finalize st2w = .ok (st2w.collect.map (fun c => (c, none))) :=
  ⟨c2_frl_length_invariant.1 blob2w edge2w bindex2w 10 [(nd "R", none)] rfl,
   c2_frl_length_invariant.2 st2w rfl (Or.inr (by decide)) rfl⟩

/-- Provenance through one path zap: new edges are the synthetic
(metadata-free) zap edges. -/
theorem pathZapStep_mem (chain : List (Option String)) (subg : List Triple)
    (acc : List Edge × List Edge) (p : List String) :
    ∀ e ∈ (pathZapStep chain subg acc p).1, e ∈ acc.1 ∨ e.meta = none := by
  intro e h
  simp only [pathZapStep] at h
  split at h
  · rcases List.mem_append.mp h with h1 | h1
    · exact Or.inl h1
    · right
      rw [List.mem_singleton.mp h1]
      rfl
  · split at h
    · rcases List.mem_append.mp h with h1 | h1
      · exact Or.inl h1
      · right
        rw [List.mem_singleton.mp h1]
        rfl
    · exact Or.inl h

theorem pathZapFold_mem (chain : List (Option String)) (subg : List Triple) :
    ∀ (paths : List (List String)) (acc : List Edge × List Edge),
      ∀ e ∈ (pathZapFold chain subg paths acc).1, e ∈ acc.1 ∨ e.meta = none := by
  intro paths
  induction paths with
  | nil => intro acc e h; exact Or.inl h
  | cons p t ih =>
    intro acc e h
    simp only [pathZapFold, List.foldl] at h ih
    rcases ih (pathZapStep chain subg acc p) e h with h1 | h1
    · exact pathZapStep_mem chain subg acc p e h1
    · exact Or.inr h1

theorem compLoop_mem (chain : List (Option String)) (triples : List Triple)
    (ends : List String) :
    ∀ (comps : List (List String)) (acc out : List Edge × List Edge),
      compLoop chain triples ends comps acc = .ok out →
      ∀ e ∈ out.1, e ∈ acc.1 ∨ e.meta = none := by
  intro comps
  induction comps with
  | nil =>
    intro acc out h e he
    simp only [compLoop] at h
    injection h with h
    subst h
    exact Or.inl he
  | cons comp rest ih =>
    intro acc out h e he
    simp only [compLoop] at h
    split at h
    · exact Except.noConfusion h
    · split at h
      · exact Except.noConfusion h
      · rcases ih _ out h e he with h1 | h1
        · exact pathZapFold_mem chain _ _ acc e h1
        · exact Or.inr h1

/-- Provenance through one collapse chain: every edge of the output either
comes from the input (metadata stripped when its predicate is in the chain)
or is a synthetic metadata-free edge; in particular every output edge whose
predicate belongs to the chain has no metadata. -/
theorem chainStep_mem (chain : List (Option String)) (es : List Edge)
    (out : List Edge × List Edge) (h : chainStep chain es = .ok out) :
    ∀ e ∈ out.1, (e ∈ es ∨ e.meta = none) ∧ (some e.pred ∈ chain → e.meta = none) := by
  intro e he
  have hmap : ∀ x ∈ es.map (fun e0 => if some e0.pred ∈ chain then stripMeta e0 else e0),
      (x ∈ es ∨ x.meta = none) ∧ (some x.pred ∈ chain → x.meta = none) := by
    intro x hx
    obtain ⟨e0, he0, hx0⟩ := List.mem_map.mp hx
    by_cases hc : some e0.pred ∈ chain
    · rw [if_pos hc] at hx0
      subst hx0
      exact ⟨Or.inr rfl, fun _ => rfl⟩
    · rw [if_neg hc] at hx0
      subst hx0
      exact ⟨Or.inl he0, fun hmem => absurd hmem hc⟩
  simp only [chainStep] at h
  split at h
  · injection h with h
    subst h
    exact hmap e he
  · split at h
    · exact Except.noConfusion h
    · rename_i addRem hcl
      injection h with h
      subst h
      rcases List.mem_append.mp he with h1 | h1
      · exact hmap e h1
      · rcases compLoop_mem _ _ _ _ _ _ hcl e h1 with h2 | h2
        · exact absurd h2 (List.not_mem_nil e)
        · exact ⟨Or.inr h2, fun _ => h2⟩

theorem simplifyGo_mem :
    ∀ (chains : List (List (Option String))) (es rem : List Edge)
      (out : List Edge × List Edge),
      simplifyGo chains es rem = .ok out →
      ∀ e ∈ out.1, (e ∈ es ∨ e.meta = none) ∧
        (∀ c ∈ chains, some e.pred ∈ c → e.meta = none) := by
  intro chains
  induction chains with
  | nil =>
    intro es rem out h e he
    simp only [simplifyGo] at h
    injection h with h
    subst h
    exact ⟨Or.inl he, fun c hc => absurd hc (List.not_mem_nil c)⟩
  | cons c cs ih =>
    intro es rem out h e he
    simp only [simplifyGo] at h
    split at h
    · exact Except.noConfusion h
    · rename_i esr hcs
      have hrec := ih esr.1 _ out h e he
      have hstep : e ∈ esr.1 → (e ∈ es ∨ e.meta = none) ∧
          (some e.pred ∈ c → e.meta = none) := by
        intro h1
        exact chainStep_mem c es esr (by rw [hcs]) e h1
      constructor
      · rcases hrec.1 with h1 | h1
        · exact (hstep h1).1
        · exact Or.inr h1
      · intro c' hc' hpred
        rcases List.mem_cons.mp hc' with hceq | hcs'
        · subst hceq
          rcases hrec.1 with h1 | h1
          · exact (hstep h1).2 hpred
          · exact h1
        · exact hrec.2 c' hcs' hpred

theorem mem_foldl_erase :
    ∀ (rem l : List Edge) (e : Edge),
      e ∈ rem.foldl (fun acc r => acc.erase r) l → e ∈ l := by
  intro rem
  induction rem with
  | nil => intro l e h; exact h
  | cons r t ih =>
    intro l e h
    exact List.mem_of_mem_erase (ih _ _ h)

/-- C10: no edge of a deblob-normalized graph carries metadata — the
deduplication step rebuilds every edge without its `meta` entry (it does not
preserve the metadata of a surviving representative) — and `simplify` already
strips `meta` from every edge whose predicate occurs in any collapse chain,
collapsed or not. -/
theorem c10_meta_never_survives :
    (∀ (b : Blob) (rc : Bool) (r : DeblobResult),
        Apinatomy.deblob b rc = .ok r → ∀ e ∈ r.blob.edges, e.meta = none)
    ∧ (∀ (chains : List (List (Option String))) (b b2 : Blob),
        nifstd.simplify chains b = .ok b2 →
        ∀ e ∈ b2.edges, (∃ c ∈ chains, some e.pred ∈ c) → e.meta = none) := by
  constructor
  · intro b rc r h e he
    simp only [Apinatomy.deblob] at h
    cases hs : nifstd.simplify (deblobChains (Apinatomy.getiot b))
        { b with edges := levelsFilter b.edges } with
    | error e2 => simp only [hs] at h; exact Except.noConfusion h
    | ok b2 =>
      simp only [hs] at h
      cases hr : renameGo (Apinatomy.getiot b) b2.edges [] b2.nodes with
      | error e2 => simp only [hr] at h; exact Except.noConfusion h
      | ok en =>
        simp only [hr] at h
        split at h
        · exact Except.noConfusion h
        · injection h with h
          subst h
          simp only [mkDeblobResult, sortEdges] at he
          rw [mem_sortByB, mem_dedupF] at he
          obtain ⟨e0, _, he0⟩ := List.mem_map.mp he
          rw [← he0]
          rfl
  · intro chains b b2 h e he hch
    simp only [nifstd.simplify] at h
    cases hs : simplifyGo chains b.edges [] with
    | error e2 => simp only [hs] at h; exact Except.noConfusion h
    | ok esr =>
      simp only [hs] at h
      injection h with h
      subst h
      obtain ⟨c, hc, hpred⟩ := hch
      exact (simplifyGo_mem chains b.edges [] esr hs e (mem_foldl_erase _ _ _ he)).2 c hc hpred

/-- C10 witness: the theorem applied at `g10`, whose single metadata-carrying
edge survives normalization only in metadata-stripped form. -/
theorem c10_witness :
    Apinatomy.deblob g10 false = .ok r10val
    ∧ (eg "A" "apinatomy:annotates" "B").meta = none :=
  ⟨rfl, c10_meta_never_survives.1 g10 false r10val rfl
      (eg "A" "apinatomy:annotates" "B") (by decide)⟩

theorem alCandidates_not_excluded (l0 : Option String) (r0 : String)
    (rest : List (Option String × String)) :
    ∀ x ∈ alCandidates l0 r0 rest, x ∉ EXCLUDED_LAYERS := by
  intro x hx
  simp only [alCandidates] at hx
  rw [List.mem_filter] at hx
  simpa using hx.2

/-- Everything `anatomical_layer` emits survived its exclusion filter. -/
theorem anatomical_layer_clean :
    ∀ (pl : List (Option String × String)) (al : ALayer),
      anatomical_layer pl = some al →
      al.1 ∉ EXCLUDED_LAYERS ∧ ∀ x ∈ al.2, x ∉ EXCLUDED_LAYERS := by
  intro pl al h
  cases pl with
  | nil => exact Option.noConfusion h
  | cons hd rest =>
    obtain ⟨l0, r0⟩ := hd
    simp only [anatomical_layer] at h
    cases hC : alCandidates l0 r0 rest with
    | nil => rw [hC] at h; exact Option.noConfusion h
    | cons p rs =>
      rw [hC] at h
      injection h with h
      subst h
      constructor
      · exact alCandidates_not_excluded l0 r0 rest p (by rw [hC]; simp)
      · intro x hx
        exact alCandidates_not_excluded l0 r0 rest x (by rw [hC]; simp [hx])

theorem termALayers_mem :
    ∀ (trs : List (Node × Option Node)) (al : ALayer),
      al ∈ termALayers trs → ∃ pl, anatomical_layer pl = some al := by
  intro trs al h
  simp only [termALayers] at h
  obtain ⟨q, hq, hid⟩ := List.mem_filterMap.mp h
  rw [mem_dedupF] at hq
  obtain ⟨rl, _, hrl⟩ := List.mem_map.mp hq
  exact ⟨[ (rl.2.map Node.id, rl.1.id) ], by rw [hrl]; exact hid⟩

theorem connPairs_mem :
    ∀ (nodesLR : List (LR × LR)) (pr : ALayer × ALayer),
      pr ∈ connPairs nodesLR →
      (∃ pl, anatomical_layer pl = some pr.1) ∧
      (∃ pl, anatomical_layer pl = some pr.2) := by
  intro nodesLR pr h
  simp only [connPairs] at h
  obtain ⟨q, hq, hmatch⟩ := List.mem_filterMap.mp h
  rw [mem_dedupF] at hq
  obtain ⟨p, _, hp⟩ := List.mem_map.mp hq
  obtain ⟨q1, q2⟩ := q
  cases q1 with
  | none => exact Option.noConfusion hmatch
  | some a =>
    cases q2 with
    | none => exact Option.noConfusion hmatch
    | some b =>
      simp only at hmatch
      split at hmatch
      · injection hmatch with hmatch
        subst hmatch
        injection hp with hp1 hp2
        exact ⟨⟨p.1.2, hp1⟩, ⟨p.2.2, hp2⟩⟩
      · exact Option.noConfusion hmatch

/-- C3: no member of `EXCLUDED_LAYERS` (the fixed term list plus null) ever
appears in the axons, dendrites or connectivity fields of a
`parse_connectivity` result: every emitted anatomical-layer component
survived the exclusion filter of `anatomical_layer`. -/
theorem c3_excluded_layers_never_in_output :
    ∀ (data : Blob) (fuel : Nat) (res : ConnResult),
      Apinatomy.parse_connectivity data fuel = .ok res →
      (∀ al ∈ res.axons, al.1 ∉ EXCLUDED_LAYERS ∧ ∀ x ∈ al.2, x ∉ EXCLUDED_LAYERS) ∧
      (∀ al ∈ res.dendrites, al.1 ∉ EXCLUDED_LAYERS ∧ ∀ x ∈ al.2, x ∉ EXCLUDED_LAYERS) ∧
      (∀ pr ∈ res.connectivity,
        (pr.1.1 ∉ EXCLUDED_LAYERS ∧ ∀ x ∈ pr.1.2, x ∉ EXCLUDED_LAYERS) ∧
        (pr.2.1 ∉ EXCLUDED_LAYERS ∧ ∀ x ∈ pr.2.2, x ∉ EXCLUDED_LAYERS)) := by
  intro data fuel res h
  simp only [Apinatomy.parse_connectivity] at h
  cases hdb : Apinatomy.deblob data false with
  | error e => simp only [hdb] at h; exact Except.noConfusion h
  | ok r =>
    simp only [hdb] at h
    cases hmm : (Apinatomy.nexts r.blob).mapM (fun p =>
        (match Apinatomy.layer_regions r.blob p.1 fuel with
        | .error e => .error e
        | .ok a =>
          match Apinatomy.layer_regions r.blob p.2 fuel with
          | .error e => .error e
          | .ok b => .ok (a, b) : Except PErr (LR × LR))) with
    | error e => simp only [hmm] at h; exact Except.noConfusion h
    | ok lrPairs =>
      simp only [hmm] at h
      cases hat : Apinatomy.find_terminal_region_layers r.blob Apinatomy.axon
          (fun i => r.blob.nodes.find? (fun n => n.id == i)) fuel with
      | error e => simp only [hat] at h; exact Except.noConfusion h
      | ok atr =>
        simp only [hat] at h
        cases hdt : Apinatomy.find_terminal_region_layers r.blob Apinatomy.dendrite
            (fun i => r.blob.nodes.find? (fun n => n.id == i)) fuel with
        | error e => simp only [hdt] at h; exact Except.noConfusion h
        | ok dtr =>
          simp only [hdt] at h
          injection h with h
          subst h
          refine ⟨?_, ?_, ?_⟩
          · intro al hal
            obtain ⟨pl, hpl⟩ := termALayers_mem _ al hal
            exact anatomical_layer_clean pl al hpl
          · intro al hal
            obtain ⟨pl, hpl⟩ := termALayers_mem _ al hal
            exact anatomical_layer_clean pl al hpl
          · intro pr hpr
            obtain ⟨⟨pl1, hpl1⟩, ⟨pl2, hpl2⟩⟩ := connPairs_mem _ pr hpr
            exact ⟨anatomical_layer_clean pl1 pr.1 hpl1,
                   anatomical_layer_clean pl2 pr.2 hpl2⟩

/-- C3 witness: the theorem applied at `gDfail`, whose result has a
non-empty axon list. -/
theorem c3_witness :
    Apinatomy.parse_connectivity gDfail 10 = .ok r3val
    ∧ ((some "RA", ([] : List (Option String))).1 ∉ EXCLUDED_LAYERS) :=
  ⟨rfl, ((c3_excluded_layers_never_in_output gDfail 10 r3val rfl).1
      (some "RA", []) (by decide)).1⟩

/-- C6 (amended): the ordered pairs of the `nexts` stage of
`parse_connectivity` are exactly the (sub, obj) pairs of *all* `next`/`next*`
edges of the normalized graph, present whenever at least one `lyphs` edge
provides a path start — no reachability filtering from the start nodes
occurs (each start merely replicates the full pair list). -/
theorem c6_next_pairs_characterization :
    ∀ (blob : Blob) (p : String × String),
      p ∈ Apinatomy.nexts blob ↔
        (Apinatomy.startsOf blob ≠ [] ∧ ∃ e ∈ blob.edges,
          (e.pred = Apinatomy.next ∨ e.pred = Apinatomy.next_s) ∧ p = (e.sub, e.obj)) := by
  intro blob p
  simp only [Apinatomy.nexts, List.mem_flatMap]
  constructor
  · rintro ⟨s, hs, hp⟩
    refine ⟨fun hc => absurd hs (by rw [hc]; exact List.not_mem_nil s), ?_⟩
    simp only [Apinatomy.nextPairs, List.mem_map, List.mem_filter] at hp
    obtain ⟨e, ⟨he, hpred⟩, hpe⟩ := hp
    refine ⟨e, he, ?_, hpe.symm⟩
    simp only [nifstd.pred, Bool.or_eq_true, beq_iff_eq] at hpred
    exact hpred
  · rintro ⟨hne, e, he, hpred, hp⟩
    obtain ⟨s, hs⟩ := List.exists_mem_of_ne_nil _ hne
    refine ⟨s, hs, ?_⟩
    simp only [Apinatomy.nextPairs, List.mem_map, List.mem_filter]
    refine ⟨e, ⟨he, ?_⟩, hp.symm⟩
    simp only [nifstd.pred, Bool.or_eq_true, beq_iff_eq]
    exact hpred

/-- Helper for inert-graph reasoning: a predicate outside `BAD_PREDS`
differs from every member. -/
theorem ne_of_not_mem_bad {p x : String} (h : p ∉ BAD_PREDS) (hx : x ∈ BAD_PREDS) :
    p ≠ x := fun hc => h (hc ▸ hx)

theorem getiot_none_of_inert (b : Blob) (h : ∀ e ∈ b.edges, e.pred ∉ BAD_PREDS) :
    Apinatomy.getiot b = none := by
  simp only [Apinatomy.getiot]
  rw [List.findSome?_eq_none_iff]
  intro e he
  have h1 : e.pred ≠ Apinatomy.inheritedExternal :=
    ne_of_not_mem_bad (h e he) (by decide)
  have h2 : e.pred ≠ Apinatomy.inheritedOntologyTerms :=
    ne_of_not_mem_bad (h e he) (by decide)
  rw [if_neg (by simp [h1, h2])]

theorem levelsFilter_noop (es : List Edge)
    (h : ∀ e ∈ es, e.pred ≠ "apinatomy:levels") : levelsFilter es = es := by
  rw [levelsFilter, List.filter_eq_self]
  intro e he
  simp [h e he]

theorem chainStep_inert (c : List (Option String)) (es : List Edge)
    (h : ∀ e ∈ es, ¬ some e.pred ∈ c) : chainStep c es = .ok (es, []) := by
  have hmap : es.map (fun e => if some e.pred ∈ c then stripMeta e else e) = es :=
    map_id_of_mem es _ (fun e he => if_neg (h e he))
  have hfil : es.filter (fun e => decide (some e.pred ∈ c)) = [] := by
    rw [List.filter_eq_nil_iff]
    intro e he
    simp [h e he]
  simp only [chainStep, hmap, hfil]
  rfl

theorem simplifyGo_inert :
    ∀ (chains : List (List (Option String))) (es rem : List Edge),
      (∀ e ∈ es, ∀ c ∈ chains, ¬ some e.pred ∈ c) →
      simplifyGo chains es rem = .ok (es, rem) := by
  intro chains
  induction chains with
  | nil => intro es rem _; rfl
  | cons c cs ih =>
    intro es rem h
    have hc : chainStep c es = .ok (es, []) :=
      chainStep_inert c es (fun e he => h e he c (by simp))
    simp only [simplifyGo, hc, List.append_nil]
    exact ih es rem (fun e he c2 hc2 => h e he c2 (by simp [hc2]))

theorem simplify_inert (b : Blob)
    (h : ∀ e ∈ b.edges, ∀ c ∈ deblobChains none, ¬ some e.pred ∈ c) :
    nifstd.simplify (deblobChains none) b = .ok b := by
  simp only [nifstd.simplify, simplifyGo_inert _ _ _ h]
  rfl

theorem renameEdge_inert (p : String) (hb : p ∉ BAD_PREDS) : renameEdge none p = p := by
  have h1 : p ≠ "apinatomy:nextChainStartLevels" := ne_of_not_mem_bad hb (by decide)
  have h2 : p ≠ "apinatomy:target-apinatomy:rootOf-apinatomy:levels" :=
    ne_of_not_mem_bad hb (by decide)
  have h3 : p ≠ "apinatomy:conveys-apinatomy:source-apinatomy:sourceOf" :=
    ne_of_not_mem_bad hb (by decide)
  have h4 : p ≠ "apinatomy:conveys-apinatomy:target-apinatomy:sourceOf" :=
    ne_of_not_mem_bad hb (by decide)
  have h5 : p ≠ "apinatomy:conveyingLyph-apinatomy:topology" :=
    ne_of_not_mem_bad hb (by decide)
  have h6 : p ≠ "apinatomy:conveyingLyph-None" := ne_of_not_mem_bad hb (by decide)
  have h7 : p ≠ "apinatomy:cloneOf-None" := ne_of_not_mem_bad hb (by decide)
  simp only [renameEdge, iotName, Option.getD]
  have e1 : (if (p == "apinatomy:nextChainStartLevels") = true
      then "apinatomy:next" else p) = p := if_neg (by simp [h1])
  rw [e1]
  have e2 : (if (p == "apinatomy:target-apinatomy:rootOf-apinatomy:levels") = true
      ∨ (p == "apinatomy:conveys-apinatomy:source-apinatomy:sourceOf") = true
      ∨ (p == "apinatomy:conveys-apinatomy:target-apinatomy:sourceOf") = true
      then "apinatomy:next*" else p) = p := if_neg (by simp [h2, h3, h4])
  rw [e2]
  have e3 : (if (p == "apinatomy:conveyingLyph-apinatomy:topology") = true
      then "apinatomy:topology*" else p) = p := if_neg (by simp [h5])
  rw [e3]
  have hc1 : "apinatomy:conveyingLyph-" ++ "None" = "apinatomy:conveyingLyph-None" := rfl
  have hc2 : "apinatomy:cloneOf-" ++ "None" = "apinatomy:cloneOf-None" := rfl
  refine if_neg ?_
  rintro (hc | hc) <;> rw [beq_iff_eq] at hc
  · exact h6 (hc.trans hc1)
  · exact h7 (hc.trans hc2)

theorem renameGo_inert :
    ∀ (es acc : List Edge) (nds : List Node),
      (∀ e ∈ es, e.pred ∉ BAD_PREDS) →
      renameGo none es acc nds = .ok (acc ++ es, nds) := by
  intro es
  induction es with
  | nil => intro acc nds _; simp [renameGo]
  | cons e t ih =>
    intro acc nds h
    have hb := h e (by simp)
    have hre : renameEdge none e.pred = e.pred := renameEdge_inert e.pred hb
    have hts : ¬ (e.pred == Apinatomy.topology_s) = true := by
      simp [ne_of_not_mem_bad hb (show Apinatomy.topology_s ∈ BAD_PREDS by decide)]
    simp only [renameGo, hre]
    rw [if_neg hts]
    have hX : ({ sub := e.sub, pred := e.pred, obj := e.obj, meta := e.meta } : Edge) = e := rfl
    rw [hX]
    rw [ih (acc ++ [e]) nds (fun x hx => h x (by simp [hx]))]
    simp

/-- On a graph with only rule-inert predicates, one deblob pass only
meta-strips, deduplicates, sorts and prunes. -/
theorem deblob_inert (g : Blob) (h : ∀ e ∈ g.edges, e.pred ∉ BAD_PREDS) :
    Apinatomy.deblob g false = .ok (mkDeblobResult g.edges g.nodes) := by
  have hiot : Apinatomy.getiot g = none := getiot_none_of_inert g h
  have hlf : levelsFilter g.edges = g.edges :=
    levelsFilter_noop g.edges (fun e he => ne_of_not_mem_bad (h e he) (by decide))
  have hchains : ∀ c ∈ deblobChains none, ∀ x ∈ c,
      x ∈ (none :: BAD_PREDS.map some : List (Option String)) := by decide
  have hnc : ∀ e ∈ g.edges, ∀ c ∈ deblobChains none, ¬ some e.pred ∈ c := by
    intro e he c hc hmem
    have hx := hchains c hc _ hmem
    simp only [List.mem_cons, List.mem_map] at hx
    rcases hx with hx | ⟨q, hq, hx⟩
    · exact Option.noConfusion hx
    · have hqe : q = e.pred := Option.some.inj hx
      exact h e he (hqe ▸ hq)
  have hsim : nifstd.simplify (deblobChains none)
      ({ nodes := g.nodes, edges := g.edges } : Blob)
      = .ok { nodes := g.nodes, edges := g.edges } :=
    simplify_inert _ hnc
  have hren : renameGo none g.edges [] g.nodes = .ok ([] ++ g.edges, g.nodes) :=
    renameGo_inert g.edges [] g.nodes h
  simp only [Apinatomy.deblob, hiot, hlf, hsim, hren, List.nil_append,
    Bool.false_eq_true, false_and, reduceIte]

/-- C9 (amended): deblob is not idempotent in general (see the
counterexample pairing a levels edge with a nextChainStartLevels edge);
it is idempotent on every graph none of whose edge predicates triggers a
normalizer rule: a second pass then returns the identical blob. -/
theorem c9_idempotent_on_inert_graphs :
    ∀ (g : Blob) (r1 : DeblobResult),
      (∀ e ∈ g.edges, e.pred ∉ BAD_PREDS) →
      Apinatomy.deblob g false = .ok r1 →
      ∃ r2, Apinatomy.deblob r1.blob false = .ok r2 ∧ r2.blob = r1.blob := by
  intro g r1 h h1
  rw [deblob_inert g h] at h1
  injection h1 with h1
  subst h1
  have hb1 : (mkDeblobResult g.edges g.nodes).blob =
      { nodes := g.nodes.filter (fun n => decide (n.id ∈
          (sortEdges (dedupF (g.edges.map stripMeta))).flatMap (fun e => [e.sub, e.obj]))),
        edges := sortEdges (dedupF (g.edges.map stripMeta)) } := rfl
  have hH2 : ∀ e ∈ sortEdges (dedupF (g.edges.map stripMeta)), e.pred ∉ BAD_PREDS := by
    intro e he
    rw [sortEdges, mem_sortByB, mem_dedupF] at he
    obtain ⟨e0, he0, heq⟩ := List.mem_map.mp he
    rw [← heq]
    exact h e0 he0
  rw [hb1]
  rw [deblob_inert _ hH2]
  refine ⟨_, rfl, ?_⟩
  have hFstrip : (sortEdges (dedupF (g.edges.map stripMeta))).map stripMeta
      = sortEdges (dedupF (g.edges.map stripMeta)) := by
    apply map_id_of_mem
    intro e he
    rw [sortEdges, mem_sortByB, mem_dedupF] at he
    obtain ⟨e0, he0, heq⟩ := List.mem_map.mp he
    rw [← heq]
    rfl
  have hFnodup : (sortEdges (dedupF (g.edges.map stripMeta))).Nodup := by
    have hperm := sortByB_perm edgeLeB (dedupF (g.edges.map stripMeta))
    exact (hperm.nodup_iff).mpr (nodup_dedupF _)
  have hF2 : sortEdges (dedupF ((sortEdges (dedupF (g.edges.map stripMeta))).map stripMeta))
      = sortEdges (dedupF (g.edges.map stripMeta)) := by
    rw [hFstrip, dedupF_eq_self _ hFnodup]
    exact sortByB_eq_self edgeLeB _
      (pairwise_sortByB edgeLeB edgeLeB_total edgeLeB_trans _)
  simp only [mkDeblobResult, hF2]
  have hn1 : (g.nodes.filter (fun n => decide (n.id ∈
      (sortEdges (dedupF (g.edges.map stripMeta))).flatMap (fun e => [e.sub, e.obj])))).filter
      (fun n => decide (n.id ∈
      (sortEdges (dedupF (g.edges.map stripMeta))).flatMap (fun e => [e.sub, e.obj])))
      = g.nodes.filter (fun n => decide (n.id ∈
      (sortEdges (dedupF (g.edges.map stripMeta))).flatMap (fun e => [e.sub, e.obj]))) := by
    rw [List.filter_eq_self]
    intro n hn
    exact (List.mem_filter.mp hn).2
  rw [hn1]

/-- C9 witness: the amended idempotence applied at the concrete inert
graph `g9i`. -/
theorem c9_witness :
    Apinatomy.deblob g9i false
      = .ok (mkDeblobResult g9i.edges g9i.nodes)
    ∧ ∃ r2, Apinatomy.deblob (mkDeblobResult g9i.edges g9i.nodes).blob false = .ok r2
        ∧ r2.blob = (mkDeblobResult g9i.edges g9i.nodes).blob :=
  ⟨rfl, c9_idempotent_on_inert_graphs g9i (mkDeblobResult g9i.edges g9i.nodes)
    (by decide) rfl⟩
